import Mathlib

/-!
Shallow embedding of the numerical core of `exovetter` (`exovetter/utils.py`):
the construction of a `WqedLSF` (input validation plus the eager fit's
basis-evaluation loop), the transit-cadence masker
`mark_transit_cadences`, the iterative outlier rejection `sigmaClip`, the
scatter estimator `estimate_scatter`, the sliding-median detrender
`median_detrend`, and the amplitude/phase extraction of `WqedLSF`.

Finite floating-point values are modelled as exact rationals; the distinguished
non-finite floats (nan, inf, -inf) that the validation code tests for are
modelled by the dedicated type `EFloat`.  Real-valued quantities that involve
square roots or inverse trigonometric functions (amplitude, phase, the final
`/ sqrt 2` of the scatter estimate) are modelled over `ℝ`.
-/

namespace Exovetter

/-- A floating-point input value as far as `np.isfinite` is concerned:
either a finite value (modelled exactly as a rational) or one of the
non-finite floats. -/
inductive EFloat where
  | fin (q : ℚ)
  | nan
  | inf
  | ninf
  deriving DecidableEq, Repr

/-- `np.isfinite` on an `EFloat`. -/
def EFloat.isFinite : EFloat → Bool
  | .fin _ => true
  | _ => false

/-- The basis function passed to `WqedLSF`: either the module's `sine`
function or some other callable. -/
inductive Basis where
  | sine
  | other
  deriving DecidableEq, Repr

/-- The `s` argument of `WqedLSF.__init__`: omitted (`None`), a scalar,
or a 1-d array. -/
inductive SInput where
  | none
  | scalar (v : EFloat)
  | array (l : List EFloat)
  deriving DecidableEq, Repr

/-- The input-validation prefix of `WqedLSF.__init__` (utils.py lines
248-277), translated check by check and in the order the code performs
them.  `periodGiven` models `'period' in kwargs`.  Returns `Except.error`
where the code raises `ValueError`.  Note that in the code a *scalar* `s`
is broadcast (`np.zeros(size) + s`) without any finiteness check: only the
array branch of the `elif` chain tests `np.isfinite(s)`. -/
def wqedValidate (x y : List EFloat) (s : SInput) (order : ℤ)
    (func : Basis) (periodGiven : Bool) : Except String Unit :=
  if func = Basis.sine ∧ periodGiven = false then
    .error "period must be provided for sine function"
  else if x.length = 0 then
    .error "x is zero length"
  else if x.length ≠ y.length then
    .error "x and y must have same length"
  else if order < 1 then
    .error "Order must be at least 1"
  else if (x.length : ℤ) ≤ order then
    .error "Length of input must be at least one greater than order"
  else if ¬ x.all EFloat.isFinite then
    .error "Nan or Inf found in x"
  else if ¬ y.all EFloat.isFinite then
    .error "Nan or Inf found in y"
  else
    match s with
    | .none => .ok ()
    | .scalar _ => .ok ()
    | .array l =>
        if x.length ≠ l.length then
          .error "x and s must have same length"
        else if ¬ l.all EFloat.isFinite then
          .error "Nan or Inf found in s"
        else
          .ok ()

/-- Modelled from the spec: the condition under which, according to the claim,
construction of a `WqedLSF` raises a `ValueError`.  It asserts a non-finite
check for `s` "whether s is given as an array or as a scalar". -/
def specRaisesCond (x y : List EFloat) (s : SInput) (order : ℤ)
    (func : Basis) (periodGiven : Bool) : Prop :=
  (func = Basis.sine ∧ periodGiven = false) ∨
  x.length = 0 ∨
  x.length ≠ y.length ∨
  order < 1 ∨
  (x.length : ℤ) ≤ order ∨
  (¬ x.all EFloat.isFinite) ∨
  (¬ y.all EFloat.isFinite) ∨
  (∃ v, s = SInput.scalar v ∧ v.isFinite = false) ∨
  (∃ l, s = SInput.array l ∧ (l.length ≠ x.length ∨ ¬ l.all EFloat.isFinite))

/-- The whole construction of a `WqedLSF`: after the validation prefix,
`__init__` eagerly calls `self._fit()` (utils.py line 287), which
evaluates `self.func(self.x, i, **kwargs)` for every `i in range(order)`
(lines 293-294).  The module's `sine` basis raises
`ValueError("Order should be zero or one")` for any `i ≥ 2` (line 19),
so with the sine basis the fit's basis-evaluation loop raises exactly
when `order ≥ 3`.  `Basis.other` stands for a user-supplied callable
that evaluates without raising.  The later normal-equations inversion
can fail on a singular matrix, but `np.linalg.inv` signals that with
`numpy.linalg.LinAlgError`, a class derived from `Exception`, not from
`ValueError`, so that path is outside a claim about `ValueError`. -/
def wqedConstruct (x y : List EFloat) (s : SInput) (order : ℤ)
    (func : Basis) (periodGiven : Bool) : Except String Unit :=
  match wqedValidate x y s order func periodGiven with
  | .error e => .error e
  | .ok _ =>
      if func = Basis.sine ∧ 3 ≤ order then
        .error "Order should be zero or one"
      else
        .ok ()

/-- Whether a modelled call raised. -/
def isError {α : Type} (e : Except String α) : Prop :=
  match e with
  | .error _ => True
  | .ok _ => False

instance {α : Type} (e : Except String α) : Decidable (isError e) :=
  match e with
  | .error _ => isTrue True.intro
  | .ok _ => isFalse fun h => h

instance {ε α : Type} [DecidableEq ε] [DecidableEq α] : DecidableEq (Except ε α) := fun
  | .error e₁, .error e₂ => decidable_of_iff (e₁ = e₂) (by simp)
  | .error _, .ok _ => isFalse (by intro h; cases h)
  | .ok _, .error _ => isFalse (by intro h; cases h)
  | .ok a₁, .ok a₂ => decidable_of_iff (a₁ = a₂) (by simp)

/-! ## `mark_transit_cadences` (utils.py lines 62-131)

Times are modelled as exact rationals (the claims about this function
concern finite inputs).  `sys.float_info.max`, the "large value that
isn't NaN" used to blank out flagged cadences, is the exact value of the
largest double, `(2 - 2^-52) * 2^1023`. -/

/-- `sys.float_info.max` as an exact rational. -/
def bigNum : ℚ := 2 ^ 1024 - 2 ^ 971

/-- `np.min` over a list (the caller guarantees non-emptiness; `np.min`
of an empty array raises, which the caller of this helper models
separately). -/
def listMin : List ℚ → ℚ
  | [] => 0
  | h :: t => t.foldl min h

/-- `np.max` over a list. -/
def listMax : List ℚ → ℚ
  | [] => 0
  | h :: t => t.foldl max h

/-- The valid (unflagged) times `time[~flags]`. -/
def goodTimes (time : List ℚ) (flags : List Bool) : List ℚ :=
  (time.zip flags).filterMap fun tf => if tf.2 then none else some tf.1

/-- One pass of the accumulation loop `idx = np.bitwise_or(idx, ...)`:
for transit centre `tt`, compute `diff = time - tt`, overwrite flagged
entries with `bigNum`, and OR in `np.fabs(diff) < max_diff`.
(`np.isfinite(diff)` always holds in the rational model.) -/
def transitAccum (tf : List (ℚ × Bool)) (maxDiff : ℚ) (acc : List Bool)
    (tt : ℚ) : List Bool :=
  List.zipWith
    (fun a p => a || decide (|(if p.2 then bigNum else p.1 - tt)| < maxDiff))
    acc tf

/-- `mark_transit_cadences(time, period_days, epoch_bkjd, duration_days,
num_durations, flags)`.  Returns the mask together with the Boolean
recording whether the `'No cadences found matching transit locations'`
warning is emitted (`not np.any(idx)`).  The two raising paths are
modelled as errors: `np.min`/`np.max` of an empty valid-time set raise,
and `period_days = 0` makes `i0`/`i1` non-finite in floating point,
tripping the `'Error bounding transit time'` check.  (The in-loop
`'NaN found in diff'` check never fires on finite inputs.) -/
def markTransitCadences (time : List ℚ) (periodDays epochBkjd durationDays
    numDurations : ℚ) (flags : List Bool) : Except String (List Bool × Bool) :=
  let good := goodTimes time flags
  if good = [] then
    .error "zero-size array to reduction operation"
  else if periodDays = 0 then
    .error "Error bounding transit time"
  else
    let i0 : ℤ := ⌊(listMin good - epochBkjd) / periodDays⌋
    let i1 : ℤ := ⌈(listMax good - epochBkjd) / periodDays⌉
    let centers : List ℚ :=
      if i0 ≤ i1 then
        (List.range (i1 - i0).toNat.succ).map
          fun k => epochBkjd + periodDays * ((i0 : ℚ) + k)
      else []
    let maxDiff := 1 / 2 * durationDays * numDurations
    let tf := time.zip flags
    let idx := centers.foldl (transitAccum tf maxDiff) (time.map fun _ => false)
    .ok (idx, idx.all fun b => !b)

theorem getD_map_false (time : List ℚ) (i : ℕ) :
    (time.map fun _ => false).getD i false = false := by
  induction time generalizing i with
  | nil => rfl
  | cons t ts ih => cases i with
    | zero => rfl
    | succ j => exact ih j

theorem zip_getD_snd (a : List ℚ) (b : List Bool) (i : ℕ) (hb : i < b.length)
    (hab : a.length = b.length) :
    ((a.zip b).getD i ((0 : ℚ), false)).2 = b.getD i false := by
  induction a generalizing b i with
  | nil => simp at hab; omega
  | cons x xs ih =>
    cases b with
    | nil => simp at hb
    | cons y ys =>
      cases i with
      | zero => rfl
      | succ j =>
        simp only [List.length_cons] at hb hab
        exact ih ys j (by omega) (by omega)

/-- Flagged cadences have their time difference forced to `bigNum`, so as
long as the half-window does not exceed `bigNum` one accumulation pass
never marks them. -/
theorem transitAccum_getD_flagged (maxDiff : ℚ) (hmd : maxDiff ≤ bigNum) :
    ∀ (tf : List (ℚ × Bool)) (acc : List Bool) (tt : ℚ) (i : ℕ),
      (tf.getD i ((0 : ℚ), false)).2 = true → acc.getD i false = false →
      (transitAccum tf maxDiff acc tt).getD i false = false := by
  intro tf
  induction tf with
  | nil => intro acc tt i hflag _; simp at hflag
  | cons p ps ih =>
    intro acc tt i hflag hacc
    cases acc with
    | nil => rfl
    | cons a as =>
      cases i with
      | zero =>
        simp only [List.getD_cons_zero] at hflag hacc
        simp only [transitAccum, List.zipWith_cons_cons, List.getD_cons_zero,
          hacc, hflag, Bool.false_or, if_true]
        have hb : (0 : ℚ) ≤ bigNum := by norm_num [bigNum]
        rw [abs_of_nonneg hb]
        simp only [decide_eq_false_iff_not, not_lt]
        exact hmd
      | succ j =>
        simp only [List.getD_cons_succ] at hflag hacc ⊢
        exact ih as tt j hflag hacc

theorem foldl_transitAccum_flagged (tf : List (ℚ × Bool)) (maxDiff : ℚ)
    (hmd : maxDiff ≤ bigNum) (i : ℕ) (hflag : (tf.getD i ((0 : ℚ), false)).2 = true) :
    ∀ (centers : List ℚ) (acc : List Bool), acc.getD i false = false →
      (centers.foldl (transitAccum tf maxDiff) acc).getD i false = false := by
  intro centers
  induction centers with
  | nil => intro acc hacc; exact hacc
  | cons c cs ih =>
    intro acc hacc
    exact ih _ (transitAccum_getD_flagged maxDiff hmd tf acc c i hflag hacc)

/-- Claim C10: if `mark_transit_cadences` returns normally and the
half-window `0.5 * duration_days * num_durations` does not exceed the float
maximum, then every cadence whose entry in `flags` is `True` is `False` in
the returned mask. -/
theorem markTransitCadences_flagged_never_marked (time : List ℚ)
    (periodDays epochBkjd durationDays numDurations : ℚ) (flags : List Bool)
    (mask : List Bool) (warned : Bool) (i : ℕ)
    (hlen : time.length = flags.length)
    (hmd : 1 / 2 * durationDays * numDurations ≤ bigNum)
    (hok : markTransitCadences time periodDays epochBkjd durationDays
      numDurations flags = .ok (mask, warned))
    (hflag : flags.getD i false = true) :
    mask.getD i false = false := by
  have hi : i < flags.length := by
    by_contra hge
    rw [List.getD_eq_default _ _ (by omega)] at hflag
    exact Bool.false_ne_true hflag
  have htf : ((time.zip flags).getD i ((0 : ℚ), false)).2 = true := by
    rw [zip_getD_snd time flags i hi hlen]
    exact hflag
  unfold markTransitCadences at hok
  by_cases h1 : goodTimes time flags = []
  · rw [if_pos h1] at hok
    exact Except.noConfusion hok
  rw [if_neg h1] at hok
  by_cases h2 : periodDays = 0
  · rw [if_pos h2] at hok
    exact Except.noConfusion hok
  rw [if_neg h2] at hok
  simp only [Except.ok.injEq, Prod.mk.injEq] at hok
  rw [← hok.1]
  exact foldl_transitAccum_flagged _ _ hmd i htf _ _ (getD_map_false time i)

/-- Claim C8: when the valid-time set is non-empty and the period is
non-zero (finite cycle bounds), `mark_transit_cadences` returns normally,
and the non-fatal warning flag is emitted exactly when the returned mask is
all-`False` (in particular, when no cadence matches any transit window the
result is an all-`False` mask plus a warning, not an error). -/
theorem markTransitCadences_no_match_warns (time : List ℚ)
    (periodDays epochBkjd durationDays numDurations : ℚ) (flags : List Bool)
    (hgood : goodTimes time flags ≠ [])
    (hper : periodDays ≠ 0) :
    ∃ mask, markTransitCadences time periodDays epochBkjd durationDays
      numDurations flags = .ok (mask, mask.all fun b => !b) := by
  unfold markTransitCadences
  rw [if_neg hgood, if_neg hper]
  exact ⟨_, rfl⟩

/-- Witness for claim C8: `time = [0, 1]`, `period = 5`, `epoch = 2.5`,
`duration = 0.1` puts no sample inside any transit window; the hypotheses
of `markTransitCadences_no_match_warns` hold and the call returns normally
with the warning tied to the all-`False` test. -/
theorem markTransitCadences_no_match_warns_witness :
    goodTimes [0, 1] [false, false] ≠ [] ∧ (5 : ℚ) ≠ 0 ∧
    ∃ mask, markTransitCadences [0, 1] 5 (5 / 2) (1 / 10) 1 [false, false] =
      .ok (mask, mask.all fun b => !b) :=
  ⟨by simp [goodTimes], by norm_num,
    markTransitCadences_no_match_warns [0, 1] 5 (5 / 2) (1 / 10) 1 [false, false]
      (by simp [goodTimes]) (by norm_num)⟩

/-- Concrete run used by the witness of claim C10: the cadence at `t = 1`
is pre-flagged and is not marked even though `t = 2` is a transit centre
of the same ephemeris. -/
theorem markTransitCadences_flagged_run :
    markTransitCadences [0, 1, 2] 5 2 1 1 [false, true, false] =
      .ok ([false, false, true], false) := by
  have hg : goodTimes [0, 1, 2] [false, true, false] = [0, 2] := by
    simp [goodTimes]
  have hmin : listMin [(0 : ℚ), 2] = 0 := by norm_num [listMin]
  have hmax : listMax [(0 : ℚ), 2] = 2 := by norm_num [listMax]
  have hfl : (⌊((0 : ℚ) - 2) / 5⌋ : ℤ) = -1 := by norm_num
  have hcl : (⌈((2 : ℚ) - 2) / 5⌉ : ℤ) = 0 := by norm_num
  unfold markTransitCadences
  rw [hg]
  rw [if_neg (by simp), if_neg (by norm_num)]
  rw [hmin, hmax, hfl, hcl]
  simp only [show Int.toNat (0 - -1) = 1 from by decide, Nat.succ_eq_add_one]
  norm_num [List.range_succ, List.range_zero, transitAccum, List.zip,
    List.zipWith_cons_cons, bigNum]

/-- Witness for claim C10 at the concrete run above. -/
theorem markTransitCadences_flagged_never_marked_witness :
    markTransitCadences [0, 1, 2] 5 2 1 1 [false, true, false] =
      .ok ([false, false, true], false) ∧
    ([false, true, false] : List Bool).getD 1 false = true ∧
    ([false, false, true] : List Bool).getD 1 false = false :=
  ⟨markTransitCadences_flagged_run, rfl,
    markTransitCadences_flagged_never_marked [0, 1, 2] 5 2 1 1
      [false, true, false] [false, false, true] false 1 rfl
      (by norm_num [bigNum]) markTransitCadences_flagged_run rfl⟩

/-! ## `sigmaClip` (utils.py lines 153-213)

`y[~idx]` is modelled by `unmasked`; `np.nanmean`/`np.nanstd` over the
unmasked points are the exact mean and population variance (the model's
rationals carry no NaNs).  When every point is masked, `np.nanmean` of the
empty selection is NaN and every `fabs(y - nan) > nSigma * nan` comparison
is `False`, so no new point is flagged: this is the `[]` branch of
`sigmaClipStep`.  The comparison `np.fabs(d) > nSigma * std`, where
`std = sqrt(v)`, is decided exactly over `ℚ` by `gtSigma` (see
`gtSigma_eq_true_iff`). -/

/-- Exact test for `|d| > c * sqrt v` over the rationals. -/
def gtSigma (d c v : ℚ) : Bool :=
  if 0 < c then decide (c ^ 2 * v < d ^ 2)
  else if c = 0 ∨ v = 0 then decide (d ≠ 0)
  else true

/-- `gtSigma` decides exactly the comparison the code performs on real
numbers (`std` being the square root of the population variance `v`). -/
theorem gtSigma_eq_true_iff (d c v : ℚ) (hv : 0 ≤ v) :
    gtSigma d c v = true ↔ (c : ℝ) * Real.sqrt (v : ℚ) < |(d : ℝ)| := by
  unfold gtSigma
  have hs : Real.sqrt (v : ℚ) ^ 2 = (v : ℚ) := Real.sq_sqrt (by exact_mod_cast hv)
  have hs0 : 0 ≤ Real.sqrt (v : ℚ) := Real.sqrt_nonneg _
  split_ifs with h1 h2
  · rw [decide_eq_true_iff]
    constructor
    · intro h
      have hc : (0 : ℝ) < c := by exact_mod_cast h1
      have habs : 0 ≤ (c : ℝ) * Real.sqrt (v : ℚ) := by positivity
      have hsq : ((c : ℝ) * Real.sqrt (v : ℚ)) ^ 2 < |(d : ℝ)| ^ 2 := by
        rw [mul_pow, hs, sq_abs]
        exact_mod_cast h
      exact lt_of_pow_lt_pow_left 2 (abs_nonneg _) hsq
    · intro h
      have hsq : ((c : ℝ) * Real.sqrt (v : ℚ)) ^ 2 < |(d : ℝ)| ^ 2 := by
        apply pow_lt_pow_left h (by positivity)
        norm_num
      rw [mul_pow, hs, sq_abs] at hsq
      exact_mod_cast hsq
  · rw [decide_eq_true_iff]
    rcases h2 with hc | hv0
    · subst hc
      simp [abs_pos]
    · subst hv0
      simp [abs_pos]
  · simp only [true_iff]
    push_neg at h1 h2
    have hc : (c : ℝ) < 0 := by exact_mod_cast lt_of_le_of_ne h1 h2.1
    have hvpos : (0 : ℝ) < (v : ℚ) := by exact_mod_cast lt_of_le_of_ne hv (Ne.symm h2.2)
    calc (c : ℝ) * Real.sqrt (v : ℚ) < 0 :=
          mul_neg_of_neg_of_pos hc (Real.sqrt_pos.mpr hvpos)
      _ ≤ |(d : ℝ)| := abs_nonneg _

/-- `y[~idx]`. -/
def unmasked (y : List ℚ) (idx : List Bool) : List ℚ :=
  (y.zip idx).filterMap fun p => if p.2 then none else some p.1

/-- One iteration of the clipping loop: compute mean and population
variance over the unmasked points and OR the mask with
`|y - mean| > nSigma * std`.  When every point is masked the NaN
mean/std comparisons are all `False` and the mask is unchanged. -/
def sigmaClipStep (y : List ℚ) (nSigma : ℚ) (idx : List Bool) : List Bool :=
  if unmasked y idx = [] then idx
  else
    let u := unmasked y idx
    let m := u.sum / (u.length : ℚ)
    let v := (u.map fun t => (t - m) ^ 2).sum / (u.length : ℚ)
    List.zipWith (fun yi b => b || gtSigma (yi - m) nSigma v) y idx

/-- The bounded iteration `for i in range(int(maxIter))`, carrying
`oldNumClipped`; returns `newIdx` as soon as the flagged count stops
changing, and the current mask when the budget is exhausted. -/
def sigmaClipGo (y : List ℚ) (nSigma : ℚ) : ℕ → ℕ → List Bool → List Bool
  | 0, _, idx => idx
  | fuel + 1, oldNum, idx =>
    if (sigmaClipStep y nSigma idx).count true = oldNum then
      sigmaClipStep y nSigma idx
    else
      sigmaClipGo y nSigma fuel ((sigmaClipStep y nSigma idx).count true)
        (sigmaClipStep y nSigma idx)

/-- `sigmaClip(y, nSigma, maxIter, initialClip)`: the default
`initialClip=None` is the all-`False` mask; a length mismatch raises
(`AssertionError` in the code); the default `maxIter` is `int(1e4)`. -/
def sigmaClip (y : List ℚ) (nSigma : ℚ) (maxIter : ℕ)
    (initialClip : Option (List Bool)) : Except String (List Bool) :=
  let idx := initialClip.getD (List.replicate y.length false)
  if idx.length ≠ y.length then
    .error "length of array y not equal to initialClip"
  else
    .ok (sigmaClipGo y nSigma maxIter (idx.count true) idx)

/-- The fit-stage disjunct of the amended claim C2 is real: with
`x = y = [0, 1, 2, 3]`, `order = 3`, the sine basis and its period given,
every validation check passes (and none of the originally claimed
conditions holds), yet construction raises: `_fit` calls `sine(x, 2)`,
which raises `ValueError("Order should be zero or one")`. -/
theorem wqedConstruct_order3_raises :
    wqedConstruct [.fin 0, .fin 1, .fin 2, .fin 3]
      [.fin 0, .fin 1, .fin 2, .fin 3] SInput.none 3 .sine true =
      .error "Order should be zero or one" ∧
    ¬ specRaisesCond [.fin 0, .fin 1, .fin 2, .fin 3]
      [.fin 0, .fin 1, .fin 2, .fin 3] SInput.none 3 .sine true := by
  constructor
  · decide
  · rintro (⟨_, h⟩ | h | h | h | h | h | h | ⟨v, hv, _⟩ | ⟨l, hl, _⟩)
    · exact Bool.noConfusion h
    · exact absurd h (by decide)
    · exact absurd h (by decide)
    · exact absurd h (by decide)
    · exact absurd h (by decide)
    · exact absurd h (by decide)
    · exact absurd h (by decide)
    · exact SInput.noConfusion hv
    · exact SInput.noConfusion hl

/-- Claim C3: on `time = [0,…,9]`, `period = 5`, `epoch = 2`,
`duration = 1`, `num_durations = 1` and no flags, `mark_transit_cadences`
returns exactly the mask flagging `t = 2` and `t = 7` (the samples at
distance `< 0.5` days from a transit centre), and does not warn. -/
theorem markTransitCadences_example :
    markTransitCadences [0, 1, 2, 3, 4, 5, 6, 7, 8, 9] 5 2 1 1
        (List.replicate 10 false) =
      .ok ([false, false, true, false, false, false, false, true, false, false],
        false) := by
  have hg : goodTimes [0, 1, 2, 3, 4, 5, 6, 7, 8, 9] (List.replicate 10 false) =
      [0, 1, 2, 3, 4, 5, 6, 7, 8, 9] := by
    simp [goodTimes, List.replicate]
  have hmin : listMin [(0 : ℚ), 1, 2, 3, 4, 5, 6, 7, 8, 9] = 0 := by
    norm_num [listMin]
  have hmax : listMax [(0 : ℚ), 1, 2, 3, 4, 5, 6, 7, 8, 9] = 9 := by
    norm_num [listMax]
  have hfl : (⌊((0 : ℚ) - 2) / 5⌋ : ℤ) = -1 := by norm_num
  have hcl : (⌈((9 : ℚ) - 2) / 5⌉ : ℤ) = 2 := by
    rw [Int.ceil_eq_iff]
    norm_num
  unfold markTransitCadences
  rw [hg]
  rw [if_neg (by simp), if_neg (by norm_num)]
  rw [hmin, hmax, hfl, hcl]
  simp only [show Int.toNat (2 - -1) = 3 from by decide, Nat.succ_eq_add_one]
  norm_num [List.range_succ, List.range_zero, transitAccum, List.zip,
    List.zipWith_cons_cons, List.replicate]

end Exovetter
namespace Exovetter

/-- Pointwise ordering of Boolean masks: every flagged entry stays flagged. -/
def maskLE (a b : List Bool) : Prop :=
  ∀ i : ℕ, a.getD i false = true → b.getD i false = true

theorem maskLE_refl (a : List Bool) : maskLE a a := fun _ h => h

theorem maskLE_trans {a b c : List Bool} (h1 : maskLE a b) (h2 : maskLE b c) :
    maskLE a c := fun i h => h2 i (h1 i h)

theorem getD_zipWith_or (g : ℚ → Bool) :
    ∀ (y : List ℚ) (idx : List Bool) (i : ℕ), idx.length = y.length →
      idx.getD i false = true →
      (List.zipWith (fun yi b => b || g yi) y idx).getD i false = true := by
  intro y
  induction y with
  | nil =>
    intro idx i hlen h
    rw [List.length_nil, List.length_eq_zero] at hlen
    subst hlen
    simp at h
  | cons a ys ih =>
    intro idx i hlen h
    cases idx with
    | nil => simp at h
    | cons b bs =>
      cases i with
      | zero =>
        simp only [List.getD_cons_zero] at h
        simp [List.zipWith_cons_cons, h]
      | succ j =>
        simp only [List.length_cons] at hlen
        simp only [List.getD_cons_succ] at h ⊢
        exact ih bs j (by omega) h

theorem sigmaClipStep_mono (y : List ℚ) (n : ℚ) (idx : List Bool)
    (hlen : idx.length = y.length) : maskLE idx (sigmaClipStep y n idx) := by
  unfold sigmaClipStep
  split_ifs with h
  · exact maskLE_refl idx
  · intro i hi
    exact getD_zipWith_or _ y idx i hlen hi

theorem sigmaClipStep_length (y : List ℚ) (n : ℚ) (idx : List Bool)
    (hlen : idx.length = y.length) :
    (sigmaClipStep y n idx).length = idx.length := by
  unfold sigmaClipStep
  split_ifs with h
  · rfl
  · simp [List.length_zipWith, hlen]

theorem sigmaClipGo_mono (y : List ℚ) (n : ℚ) :
    ∀ (fuel oldNum : ℕ) (idx : List Bool), idx.length = y.length →
      maskLE idx (sigmaClipGo y n fuel oldNum idx) := by
  intro fuel
  induction fuel with
  | zero => intro oldNum idx _; exact maskLE_refl idx
  | succ f ih =>
    intro oldNum idx hlen
    unfold sigmaClipGo
    split_ifs with h
    · exact sigmaClipStep_mono y n idx hlen
    · exact maskLE_trans (sigmaClipStep_mono y n idx hlen)
        (ih _ _ ((sigmaClipStep_length y n idx hlen).trans hlen))

/-- Claim C4: each clipping iteration only grows the flagged set, the whole
bounded run only grows it, and an exhausted budget returns the current mask. -/
theorem sigmaClip_monotone_terminates (y : List ℚ) (n : ℚ) (idx : List Bool)
    (fuel oldNum : ℕ) (hlen : idx.length = y.length) :
    maskLE idx (sigmaClipStep y n idx) ∧
    sigmaClipGo y n 0 oldNum idx = idx ∧
    maskLE idx (sigmaClipGo y n fuel oldNum idx) :=
  ⟨sigmaClipStep_mono y n idx hlen, rfl, sigmaClipGo_mono y n fuel oldNum idx hlen⟩

/-- Witness for claim C4 at `y = [3, 100]`, `nSigma = 1`. -/
theorem sigmaClip_monotone_terminates_witness :
    ([false, false] : List Bool).length = [(3 : ℚ), 100].length ∧
    (maskLE [false, false] (sigmaClipStep [(3 : ℚ), 100] 1 [false, false]) ∧
     sigmaClipGo [(3 : ℚ), 100] 1 0 0 [false, false] = [false, false] ∧
     maskLE [false, false] (sigmaClipGo [(3 : ℚ), 100] 1 7 0 [false, false])) :=
  ⟨rfl, sigmaClip_monotone_terminates [(3 : ℚ), 100] 1 [false, false] 7 0 rfl⟩

end Exovetter

namespace Exovetter

/-! ## `estimate_scatter` (utils.py lines 22-59)

`flux[np.isfinite(flux)]` is the identity in the rational model, and is
noted as such below.  `np.median` sorts and takes the middle element (the
mean of the two middle elements for even length); the median of an empty
selection, like the mean of an empty selection, is NaN, which the model
makes an explicit `Option.none`.  The float literal `1.4826` is read as
the exact rational `14826/10000`. -/

/-- `np.diff`. -/
def npDiff (l : List ℚ) : List ℚ :=
  List.zipWith (fun a b => b - a) l l.tail

/-- `np.median` of a list: `none` models the NaN produced on an empty
input. -/
def medianQ (l : List ℚ) : Option ℚ :=
  let s := l.insertionSort (· ≤ ·)
  if s.length = 0 then none
  else if s.length % 2 = 1 then some (s.getD (s.length / 2) 0)
  else some ((s.getD (s.length / 2 - 1) 0 + s.getD (s.length / 2) 0) / 2)

/-- `estimate_scatter` up to (and excluding) the final division by
`sqrt 2`: filter to the finite samples (identity over `ℚ`), difference,
sigma-clip the differences at `5`, drop the clipped ones, and return
`1.4826` times the median absolute deviation about the mean.  `none`
models the NaN that propagates out of an empty selection. -/
def estimateScatterNum (flux : List ℚ) : Option ℚ :=
  let d := npDiff flux
  match sigmaClip d 5 10000 Option.none with
  | .error _ => Option.none
  | .ok mask =>
    let d2 := unmasked d mask
    if d2 = [] then Option.none
    else
      let mean := d2.sum / (d2.length : ℚ)
      match medianQ (d2.map fun t => |t - mean|) with
      | Option.none => Option.none
      | some mad => some (14826 / 10000 * mad)

/-- `estimate_scatter(flux)`: the rational core divided by `sqrt 2`. -/
noncomputable def estimateScatter (flux : List ℚ) : Option ℝ :=
  (estimateScatterNum flux).map fun q => (Rat.cast q : ℝ) / Real.sqrt 2

end Exovetter

namespace Exovetter

theorem npDiff_map_mul (k : ℚ) (l : List ℚ) :
    npDiff (l.map fun t => k * t) = (npDiff l).map fun t => k * t := by
  unfold npDiff
  induction l with
  | nil => rfl
  | cons a t ih =>
    cases t with
    | nil => rfl
    | cons b t2 =>
      simp only [List.map_cons, List.tail_cons, List.zipWith_cons_cons] at ih ⊢
      refine congrArg₂ _ (by ring) ?_
      exact ih

theorem unmasked_map_mul (k : ℚ) :
    ∀ (y : List ℚ) (idx : List Bool),
      unmasked (y.map fun t => k * t) idx =
        (unmasked y idx).map fun t => k * t := by
  intro y
  induction y with
  | nil => intro idx; rfl
  | cons a ys ih =>
    intro idx
    cases idx with
    | nil => rfl
    | cons b bs =>
      unfold unmasked at ih ⊢
      simp only [List.map_cons, List.zip_cons_cons, List.filterMap_cons]
      cases b <;> simp [ih bs]

theorem sum_map_mul_fun (c : ℚ) (f : ℚ → ℚ) (l : List ℚ) :
    (l.map fun t => c * f t).sum = c * (l.map f).sum := by
  induction l with
  | nil => simp
  | cons a t ih =>
    simp only [List.map_cons, List.sum_cons, ih]
    ring

theorem sum_map_mul (k : ℚ) (l : List ℚ) :
    (l.map fun t => k * t).sum = k * l.sum := by
  have h := sum_map_mul_fun k (fun t => t) l
  simpa using h

theorem gtSigma_mul (k d c v : ℚ) (hk : k ≠ 0) :
    gtSigma (k * d) c (k ^ 2 * v) = gtSigma d c v := by
  have hk2 : (0 : ℚ) < k ^ 2 := by positivity
  have hne : ∀ e : ℚ, decide (k * e ≠ 0) = decide (e ≠ 0) := by
    intro e
    rw [decide_eq_decide, mul_ne_zero_iff]
    tauto
  rcases lt_trichotomy 0 c with hc | hc | hc
  · unfold gtSigma
    rw [if_pos hc, if_pos hc, decide_eq_decide, mul_pow]
    constructor
    · intro h; nlinarith
    · intro h; nlinarith
  · subst hc
    unfold gtSigma
    rw [if_neg (lt_irrefl 0), if_pos (Or.inl rfl), if_neg (lt_irrefl 0),
      if_pos (Or.inl rfl)]
    exact hne d
  · have hcnot : ¬ (0 : ℚ) < c := not_lt.mpr (le_of_lt hc)
    by_cases hv : v = 0
    · subst hv
      unfold gtSigma
      rw [if_neg hcnot, if_pos (Or.inr (mul_zero _)), if_neg hcnot,
        if_pos (Or.inr rfl)]
      exact hne d
    · have hA : ¬(c = 0 ∨ k ^ 2 * v = 0) := by
        rintro (h | h)
        · exact ne_of_lt hc h
        · rcases mul_eq_zero.mp h with h2 | h2
          · exact absurd h2 (by positivity)
          · exact hv h2
      have hB : ¬(c = 0 ∨ v = 0) := by
        rintro (h | h)
        · exact ne_of_lt hc h
        · exact hv h
      unfold gtSigma
      rw [if_neg hcnot, if_neg hA, if_neg hcnot, if_neg hB]

theorem sigmaClipStep_map_mul (k : ℚ) (hk : k ≠ 0) (y : List ℚ) (n : ℚ)
    (idx : List Bool) :
    sigmaClipStep (y.map fun t => k * t) n idx = sigmaClipStep y n idx := by
  simp only [sigmaClipStep, unmasked_map_mul]
  by_cases h : unmasked y idx = []
  · rw [h]
    simp
  · rw [if_neg (by simpa using h), if_neg h]
    have hm : ((unmasked y idx).map fun t => k * t).sum /
        ((((unmasked y idx).map fun t => k * t).length : ℕ) : ℚ) =
        k * ((unmasked y idx).sum / ((unmasked y idx).length : ℚ)) := by
      rw [sum_map_mul, List.length_map, mul_div_assoc]
    rw [hm, List.length_map]
    have hcomp : ((fun t =>
        (t - k * ((unmasked y idx).sum / ((unmasked y idx).length : ℚ))) ^ 2) ∘
          fun t => k * t) = fun t => k ^ 2 *
        ((t - (unmasked y idx).sum / ((unmasked y idx).length : ℚ)) ^ 2) := by
      funext t
      simp only [Function.comp]
      ring
    rw [List.map_map, hcomp, sum_map_mul_fun, mul_div_assoc]
    have hfun : (fun (a : ℚ) (b : Bool) => b ||
        gtSigma (k * a - k * ((unmasked y idx).sum / ((unmasked y idx).length : ℚ)))
          n (k ^ 2 * (((unmasked y idx).map fun t =>
            (t - (unmasked y idx).sum / ((unmasked y idx).length : ℚ)) ^ 2).sum /
              ((unmasked y idx).length : ℚ)))) = fun yi b => b ||
        gtSigma (yi - (unmasked y idx).sum / ((unmasked y idx).length : ℚ)) n
          (((unmasked y idx).map fun t =>
            (t - (unmasked y idx).sum / ((unmasked y idx).length : ℚ)) ^ 2).sum /
              ((unmasked y idx).length : ℚ)) := by
      funext a b
      rw [show k * a - k * ((unmasked y idx).sum / ((unmasked y idx).length : ℚ)) =
        k * (a - (unmasked y idx).sum / ((unmasked y idx).length : ℚ)) by ring]
      rw [gtSigma_mul _ _ _ _ hk]
    rw [List.zipWith_map_left, hfun]

end Exovetter

namespace Exovetter

theorem sigmaClipGo_map_mul (k : ℚ) (hk : k ≠ 0) (y : List ℚ) (n : ℚ) :
    ∀ (fuel oldNum : ℕ) (idx : List Bool),
      sigmaClipGo (y.map fun t => k * t) n fuel oldNum idx =
        sigmaClipGo y n fuel oldNum idx := by
  intro fuel
  induction fuel with
  | zero => intro oldNum idx; rfl
  | succ f ih =>
    intro oldNum idx
    unfold sigmaClipGo
    rw [sigmaClipStep_map_mul k hk y n idx, ih]

theorem sigmaClip_map_mul (k : ℚ) (hk : k ≠ 0) (y : List ℚ) (n : ℚ)
    (maxIter : ℕ) :
    sigmaClip (y.map fun t => k * t) n maxIter Option.none =
      sigmaClip y n maxIter Option.none := by
  unfold sigmaClip
  simp only [Option.getD_none, List.length_map, List.length_replicate]
  rw [if_neg (by simp), if_neg (by simp)]
  rw [sigmaClipGo_map_mul k hk]

theorem getD_map_mul (c : ℚ) (l : List ℚ) (i : ℕ) :
    (l.map fun t => c * t).getD i 0 = c * l.getD i 0 := by
  induction l generalizing i with
  | nil => simp
  | cons a t ih =>
    cases i with
    | zero => rfl
    | succ j =>
      simp only [List.map_cons, List.getD_cons_succ]
      exact ih j

theorem insertionSort_map_mul (c : ℚ) (hc : 0 < c) (l : List ℚ) :
    (l.map fun t => c * t).insertionSort (· ≤ ·) =
      (l.insertionSort (· ≤ ·)).map fun t => c * t := by
  refine (List.map_insertionSort _ _ _ _ ?_).symm
  intro a _ b _
  exact (mul_le_mul_left hc).symm

theorem medianQ_map_mul (c : ℚ) (hc : 0 < c) (l : List ℚ) :
    medianQ (l.map fun t => c * t) = (medianQ l).map fun t => c * t := by
  simp only [medianQ]
  rw [insertionSort_map_mul c hc, List.length_map]
  split_ifs with h1 h2
  · rfl
  · simp only [Option.map_some']
    exact congrArg _ (getD_map_mul c _ _)
  · simp only [Option.map_some']
    refine congrArg _ ?_
    rw [getD_map_mul, getD_map_mul]
    ring

theorem medianQ_isSome (l : List ℚ) (h : l ≠ []) : ∃ m, medianQ l = some m := by
  simp only [medianQ]
  have hlen : (l.insertionSort (· ≤ ·)).length = l.length :=
    List.length_insertionSort _ l
  have h0 : ¬ (l.insertionSort (· ≤ ·)).length = 0 := by
    rw [hlen]
    exact fun hl => h (List.length_eq_zero.mp hl)
  rw [if_neg h0]
  split_ifs <;> exact ⟨_, rfl⟩

end Exovetter

namespace Exovetter

theorem sigmaClip_none_ok (y : List ℚ) (n : ℚ) (maxIter : ℕ) :
    sigmaClip y n maxIter Option.none =
      .ok (sigmaClipGo y n maxIter ((List.replicate y.length false).count true)
        (List.replicate y.length false)) := by
  unfold sigmaClip
  rw [if_neg (by simp)]
  rfl

theorem sigmaClipGo_fixed (y : List ℚ) (n : ℚ) (idx : List Bool) (fuel : ℕ)
    (h : sigmaClipStep y n idx = idx) :
    sigmaClipGo y n (fuel + 1) (idx.count true) idx = idx := by
  unfold sigmaClipGo
  rw [h, if_pos rfl]

theorem gtSigma_zero (n : ℚ) : gtSigma 0 n 0 = false := by
  unfold gtSigma
  split_ifs with h1 h2
  · simp
  · simp
  · exact absurd (Or.inr rfl) h2

theorem unmasked_subset {y : List ℚ} {idx : List Bool} {t : ℚ}
    (h : t ∈ unmasked y idx) : t ∈ y := by
  unfold unmasked at h
  rw [List.mem_filterMap] at h
  obtain ⟨⟨a, b⟩, hab, hval⟩ := h
  by_cases hb : b = true
  · rw [if_pos hb] at hval
    exact absurd hval (by simp)
  · rw [if_neg hb] at hval
    obtain rfl : a = t := by simpa using hval
    exact (List.mem_zip hab).1

theorem zipWith_or_false (f : ℚ → Bool) :
    ∀ (y : List ℚ) (idx : List Bool), (∀ a ∈ y, f a = false) →
      idx.length = y.length →
      List.zipWith (fun a b => b || f a) y idx = idx := by
  intro y
  induction y with
  | nil =>
    intro idx _ hlen
    rw [List.length_nil, List.length_eq_zero] at hlen
    subst hlen
    rfl
  | cons a ys ih =>
    intro idx hz hlen
    cases idx with
    | nil => simp at hlen
    | cons b bs =>
      simp only [List.zipWith_cons_cons]
      rw [hz a (List.mem_cons_self _ _), Bool.or_false]
      refine congrArg _ (ih bs (fun t ht => hz t (List.mem_cons_of_mem a ht)) ?_)
      simpa using hlen

theorem sigmaClipStep_all_zero (y : List ℚ) (n : ℚ) (idx : List Bool)
    (hz : ∀ t ∈ y, t = (0 : ℚ)) (hlen : idx.length = y.length) :
    sigmaClipStep y n idx = idx := by
  simp only [sigmaClipStep]
  split_ifs with h
  · rfl
  · have hsum : (unmasked y idx).sum = 0 :=
      List.sum_eq_zero fun t ht => hz t (unmasked_subset ht)
    have hm : (unmasked y idx).sum / ((unmasked y idx).length : ℚ) = 0 := by
      rw [hsum, zero_div]
    rw [hm]
    have hv : ((unmasked y idx).map fun t => (t - 0) ^ 2).sum /
        ((unmasked y idx).length : ℚ) = 0 := by
      rw [List.sum_eq_zero, zero_div]
      intro x hx
      rw [List.mem_map] at hx
      obtain ⟨t, ht, rfl⟩ := hx
      rw [hz t (unmasked_subset ht)]
      ring
    rw [hv]
    refine zipWith_or_false _ y idx ?_ hlen
    intro a ha
    rw [hz a ha, sub_zero]
    exact gtSigma_zero n

theorem unmasked_replicate_false (y : List ℚ) :
    unmasked y (List.replicate y.length false) = y := by
  induction y with
  | nil => rfl
  | cons a ys ih =>
    simp only [List.length_cons, List.replicate_succ]
    unfold unmasked at ih ⊢
    simp only [List.zip_cons_cons, List.filterMap_cons]
    rw [if_neg Bool.false_ne_true]
    exact congrArg _ ih

theorem getD_all_zero (l : List ℚ) (hz : ∀ x ∈ l, x = (0 : ℚ)) (i : ℕ) :
    l.getD i 0 = 0 := by
  induction l generalizing i with
  | nil => simp
  | cons a t ih =>
    cases i with
    | zero => exact hz a (List.mem_cons_self _ _)
    | succ j =>
      rw [List.getD_cons_succ]
      exact ih (fun x hx => hz x (List.mem_cons_of_mem a hx)) j

theorem medianQ_all_zero (l : List ℚ) (hz : ∀ x ∈ l, x = (0 : ℚ))
    (hne : l ≠ []) : medianQ l = some 0 := by
  have hzs : ∀ x ∈ l.insertionSort (· ≤ ·), x = (0 : ℚ) := fun x hx =>
    hz x ((List.mem_insertionSort _).mp hx)
  simp only [medianQ]
  rw [if_neg (by
    rw [List.length_insertionSort]
    exact fun hl => hne (List.length_eq_zero.mp hl))]
  split_ifs
  · rw [getD_all_zero _ hzs]
  · rw [getD_all_zero _ hzs, getD_all_zero _ hzs]
    norm_num

end Exovetter

namespace Exovetter

theorem zipWith_or_exists_unflagged (g : ℚ → Bool) :
    ∀ (y : List ℚ) (idx : List Bool),
      (∃ t ∈ unmasked y idx, g t = false) →
      unmasked y (List.zipWith (fun yi b => b || g yi) y idx) ≠ [] := by
  intro y
  induction y with
  | nil =>
    intro idx h
    obtain ⟨t, ht, _⟩ := h
    exact absurd ht (by simp [unmasked])
  | cons a ys ih =>
    intro idx h
    cases idx with
    | nil =>
      obtain ⟨t, ht, _⟩ := h
      exact absurd ht (by simp [unmasked])
    | cons b bs =>
      obtain ⟨t, ht, hgt⟩ := h
      simp only [List.zipWith_cons_cons]
      cases b
      · -- unmasked (a :: ys) (false :: bs) = a :: unmasked ys bs
        have hmem : t = a ∨ t ∈ unmasked ys bs := by
          have : unmasked (a :: ys) (false :: bs) = a :: unmasked ys bs := by
            simp [unmasked]
          rw [this] at ht
          simpa using ht
        by_cases hga : g a = false
        · have : unmasked (a :: ys)
              ((false || g a) :: List.zipWith (fun yi b => b || g yi) ys bs) =
              a :: unmasked ys (List.zipWith (fun yi b => b || g yi) ys bs) := by
            simp [unmasked, hga]
          rw [this]
          exact List.cons_ne_nil _ _
        · have hga' : g a = true := by
            cases hga2 : g a
            · exact absurd hga2 hga
            · rfl
          have htail : t ∈ unmasked ys bs := by
            rcases hmem with rfl | htl
            · exact absurd hgt (by simp [hga'])
            · exact htl
          have : unmasked (a :: ys)
              ((false || g a) :: List.zipWith (fun yi b => b || g yi) ys bs) =
              unmasked ys (List.zipWith (fun yi b => b || g yi) ys bs) := by
            simp [unmasked, hga']
          rw [this]
          exact ih bs ⟨t, htail, hgt⟩
      · -- b = true: the element was already masked
        have htail : t ∈ unmasked ys bs := by
          have : unmasked (a :: ys) (true :: bs) = unmasked ys bs := by
            simp [unmasked]
          rwa [this] at ht
        have : unmasked (a :: ys)
            ((true || g a) :: List.zipWith (fun yi b => b || g yi) ys bs) =
            unmasked ys (List.zipWith (fun yi b => b || g yi) ys bs) := by
          simp [unmasked]
        rw [this]
        exact ih bs ⟨t, htail, hgt⟩

/-- Over the unmasked points, at least one point always stays within
`nSigma` standard deviations of the mean (for `nSigma ≥ 1`): the clipping
loop can never flag every remaining point. -/
theorem exists_not_clipped (u : List ℚ) (n : ℚ) (hu : u ≠ []) (hn : 1 ≤ n) :
    ∃ t ∈ u, gtSigma (t - u.sum / (u.length : ℚ)) n
      ((u.map fun t => (t - u.sum / (u.length : ℚ)) ^ 2).sum /
        (u.length : ℚ)) = false := by
  by_contra hall
  push_neg at hall
  simp only [Bool.not_eq_false] at hall
  have h0n : (0 : ℚ) < n := lt_of_lt_of_le one_pos hn
  have hL : (0 : ℚ) < (u.length : ℚ) := by
    have := List.length_pos.mpr hu
    exact_mod_cast this
  have hlt : ∀ t ∈ u, n ^ 2 * ((u.map fun t => (t - u.sum / (u.length : ℚ)) ^ 2).sum /
      (u.length : ℚ)) < (t - u.sum / (u.length : ℚ)) ^ 2 := by
    intro t ht
    have h := hall t ht
    unfold gtSigma at h
    rw [if_pos h0n] at h
    exact of_decide_eq_true h
  obtain ⟨t0, ht0⟩ := List.exists_mem_of_ne_nil u hu
  have hsum := List.sum_lt_sum
    (fun _ => n ^ 2 * ((u.map fun t => (t - u.sum / (u.length : ℚ)) ^ 2).sum /
      (u.length : ℚ)))
    (fun t => (t - u.sum / (u.length : ℚ)) ^ 2)
    (fun t ht => le_of_lt (hlt t ht)) ⟨t0, ht0, hlt t0 ht0⟩
  rw [List.map_const'] at hsum
  rw [List.sum_replicate, nsmul_eq_mul] at hsum
  have hS0 : (0 : ℚ) ≤ (u.map fun t => (t - u.sum / (u.length : ℚ)) ^ 2).sum := by
    apply List.sum_nonneg
    intro x hx
    rw [List.mem_map] at hx
    obtain ⟨t, _, rfl⟩ := hx
    positivity
  set S := (u.map fun t => (t - u.sum / (u.length : ℚ)) ^ 2).sum with hS
  have hEq : ((u.length : ℚ)) * (n ^ 2 * (S / (u.length : ℚ))) = n ^ 2 * S := by
    field_simp
  rw [hEq] at hsum
  nlinarith [mul_nonneg (mul_nonneg (sub_nonneg.mpr hn)
    (by linarith : (0 : ℚ) ≤ n + 1)) hS0]

theorem sigmaClipStep_unmasked_ne (y : List ℚ) (n : ℚ) (idx : List Bool)
    (hn : 1 ≤ n) (h : unmasked y idx ≠ []) :
    unmasked y (sigmaClipStep y n idx) ≠ [] := by
  simp only [sigmaClipStep]
  rw [if_neg h]
  exact zipWith_or_exists_unflagged _ y idx
    (exists_not_clipped (unmasked y idx) n h hn)

theorem sigmaClipGo_unmasked_ne (y : List ℚ) (n : ℚ) (hn : 1 ≤ n) :
    ∀ (fuel oldNum : ℕ) (idx : List Bool), unmasked y idx ≠ [] →
      unmasked y (sigmaClipGo y n fuel oldNum idx) ≠ [] := by
  intro fuel
  induction fuel with
  | zero => intro oldNum idx h; exact h
  | succ f ih =>
    intro oldNum idx h
    unfold sigmaClipGo
    split_ifs with hc
    · exact sigmaClipStep_unmasked_ne y n idx hn h
    · exact ih _ _ (sigmaClipStep_unmasked_ne y n idx hn h)

end Exovetter

namespace Exovetter

theorem estimateScatterNum_of_diff_nil (flux : List ℚ)
    (hd : npDiff flux = []) : estimateScatterNum flux = Option.none := by
  simp only [estimateScatterNum, hd, sigmaClip_none_ok]
  simp [unmasked]

theorem estimateScatterNum_isSome (flux : List ℚ) (hd : npDiff flux ≠ []) :
    ∃ v, estimateScatterNum flux = some v := by
  simp only [estimateScatterNum, sigmaClip_none_ok]
  have h2 : unmasked (npDiff flux)
      (sigmaClipGo (npDiff flux) 5 10000
        ((List.replicate (npDiff flux).length false).count true)
        (List.replicate (npDiff flux).length false)) ≠ [] := by
    refine sigmaClipGo_unmasked_ne _ 5 (by norm_num) _ _ _ ?_
    rw [unmasked_replicate_false]
    exact hd
  rw [if_neg h2]
  obtain ⟨mad, hmad⟩ := medianQ_isSome
    ((unmasked (npDiff flux)
      (sigmaClipGo (npDiff flux) 5 10000
        ((List.replicate (npDiff flux).length false).count true)
        (List.replicate (npDiff flux).length false))).map fun t =>
          |t - (unmasked (npDiff flux)
            (sigmaClipGo (npDiff flux) 5 10000
              ((List.replicate (npDiff flux).length false).count true)
              (List.replicate (npDiff flux).length false))).sum /
            ((unmasked (npDiff flux)
              (sigmaClipGo (npDiff flux) 5 10000
                ((List.replicate (npDiff flux).length false).count true)
                (List.replicate (npDiff flux).length false))).length : ℚ)|)
    (by simpa using h2)
  rw [hmad]
  exact ⟨_, rfl⟩

theorem estimateScatterNum_map_mul (flux : List ℚ) (k : ℚ) :
    estimateScatterNum (flux.map fun t => k * t) =
      (estimateScatterNum flux).map fun q => |k| * q := by
  by_cases hk : k = 0
  · subst hk
    by_cases hd : npDiff flux = []
    · have hd' : npDiff (flux.map fun t => (0 : ℚ) * t) = [] := by
        rw [npDiff_map_mul, hd]
        rfl
      rw [estimateScatterNum_of_diff_nil _ hd',
        estimateScatterNum_of_diff_nil _ hd]
      rfl
    · have hz : ∀ t ∈ npDiff (flux.map fun t => (0 : ℚ) * t), t = 0 := by
        rw [npDiff_map_mul]
        intro t ht
        rw [List.mem_map] at ht
        obtain ⟨s, _, rfl⟩ := ht
        ring
      have hd' : npDiff (flux.map fun t => (0 : ℚ) * t) ≠ [] := by
        rw [npDiff_map_mul]
        simpa using hd
      have hstep := sigmaClipStep_all_zero (npDiff (flux.map fun t => (0 : ℚ) * t))
        5 (List.replicate (npDiff (flux.map fun t => (0 : ℚ) * t)).length false)
        hz (by simp)
      have hgo := sigmaClipGo_fixed (npDiff (flux.map fun t => (0 : ℚ) * t)) 5
        (List.replicate (npDiff (flux.map fun t => (0 : ℚ) * t)).length false)
        9999 hstep
      rw [(by norm_num : (9999 : ℕ) + 1 = 10000)] at hgo
      obtain ⟨v, hv⟩ := estimateScatterNum_isSome flux hd
      rw [hv]
      simp only [estimateScatterNum, sigmaClip_none_ok, hgo,
        unmasked_replicate_false]
      rw [if_neg hd']
      have hsum0 : (npDiff (flux.map fun t => (0 : ℚ) * t)).sum = 0 :=
        List.sum_eq_zero hz
      rw [hsum0, zero_div]
      have hmed := medianQ_all_zero
        ((npDiff (flux.map fun t => (0 : ℚ) * t)).map fun t => |t - 0|)
        (by
          intro x hx
          rw [List.mem_map] at hx
          obtain ⟨t, ht, rfl⟩ := hx
          rw [hz t ht]
          simp)
        (by simpa using hd')
      rw [hmed]
      simp only [Option.map_some']
      norm_num
  · simp only [estimateScatterNum, npDiff_map_mul, sigmaClip_map_mul k hk,
      sigmaClip_none_ok, unmasked_map_mul]
    set u := unmasked (npDiff flux)
      (sigmaClipGo (npDiff flux) 5 10000
        ((List.replicate (npDiff flux).length false).count true)
        (List.replicate (npDiff flux).length false)) with hu
    by_cases hu0 : u = []
    · rw [hu0]
      simp
    · rw [if_neg (by simpa using hu0), if_neg hu0]
      have hm : ((u.map fun t => k * t).sum / (((u.map fun t => k * t).length : ℕ) : ℚ)) =
          k * (u.sum / (u.length : ℚ)) := by
        rw [sum_map_mul, List.length_map, mul_div_assoc]
      rw [hm]
      have habs : ((u.map fun t => k * t).map fun t =>
          |t - k * (u.sum / (u.length : ℚ))|) =
          ((u.map fun t => |t - u.sum / (u.length : ℚ)|).map fun t => |k| * t) := by
        rw [List.map_map, List.map_map]
        have hfg : ((fun t => |t - k * (u.sum / (u.length : ℚ))|) ∘ fun t => k * t) =
            ((fun t => |k| * t) ∘ fun t => |t - u.sum / (u.length : ℚ)|) := by
          funext t
          simp only [Function.comp]
          rw [← mul_sub, abs_mul]
        rw [hfg]
      rw [habs, medianQ_map_mul |k| (abs_pos.mpr hk)]
      cases hmed : medianQ (u.map fun t => |t - u.sum / (u.length : ℚ)|) with
      | none => simp
      | some mad =>
        simp only [Option.map_some']
        refine congrArg _ ?_
        ring
  
/-- Claim C6: scaling the flux series by a constant `k` scales the scatter
estimate by `|k|` (the sigma-clip mask is unchanged by the scaling for
`k ≠ 0`; for `k = 0` both sides are zero, or NaN for series shorter
than 2). -/
theorem estimateScatter_scale_invariant (flux : List ℚ) (k : ℚ) :
    estimateScatter (flux.map fun t => k * t) =
      (estimateScatter flux).map fun r => |(k : ℝ)| * r := by
  unfold estimateScatter
  rw [estimateScatterNum_map_mul]
  cases estimateScatterNum flux with
  | none => rfl
  | some v =>
    simp only [Option.map_some']
    push_cast
    rw [mul_div_assoc]

end Exovetter

namespace Exovetter

/-! ## `median_detrend` (utils.py lines 134-150)

The window bounds are computed with Python/numpy slice semantics: a
negative lower bound wraps around to `length + lwr` (clamped at 0), which
is what the code actually does when `2 * nPoints` exceeds the series
length.  Each output sample is `flux[i] - median(window)`; an empty
window's NaN median is modelled as `Option.none`. -/

/-- Normalise one Python slice endpoint against a list of length `n`. -/
def pyIdx (n : ℕ) (i : ℤ) : ℕ :=
  if i < 0 then (max (i + n) 0).toNat else min i.toNat n

/-- `l[a:b]` with Python slice semantics. -/
def pySlice (l : List ℚ) (a b : ℤ) : List ℚ :=
  (l.take (pyIdx l.length b)).drop (pyIdx l.length a)

/-- `median_detrend(flux, nPoints)`. -/
def median_detrend (flux : List ℚ) (nPoints : ℕ) : List (Option ℚ) :=
  (List.range flux.length).map fun (i : ℕ) =>
    let lwr1 : ℤ := max ((i : ℤ) - nPoints) 0
    let upr : ℤ := min (lwr1 + 2 * nPoints) (flux.length : ℤ)
    let lwr : ℤ := upr - 2 * nPoints
    (medianQ (pySlice flux lwr upr)).map fun m => flux.getD i 0 - m

theorem getD_range_map (f : ℕ → Option ℚ) (N i : ℕ) (h : i < N) :
    ((List.range N).map f).getD i Option.none = f i := by
  rw [List.getD_eq_getElem?_getD, List.getElem?_map, List.getElem?_range h]
  rfl

/-- Claim C7, counterexample: with 5 samples and half-window `nPoints = 3`
the configured width `2 * nPoints = 6` exceeds the series length, the
recomputed lower bound is negative, and Python slicing wraps it around:
the window for `i = 0` degenerates to the single sample `flux[4]`, so no
in-bounds width-6 window exists at all. -/
theorem median_detrend_window_cex :
    (median_detrend [0, 0, 0, 0, 10] 3).getD 0 Option.none = some (-10) ∧
    ¬ ∃ lwr : ℕ, lwr + 2 * 3 ≤ ([(0 : ℚ), 0, 0, 0, 10]).length := by
  constructor
  · have h5 : (([(0 : ℚ), 0, 0, 0, 10]).length) = 5 := rfl
    rw [median_detrend]
    rw [h5]
    rw [getD_range_map _ 5 0 (by norm_num)]
    norm_num [pySlice, pyIdx, medianQ, List.insertionSort, List.orderedInsert]
  · rintro ⟨l, hl⟩
    simp only [List.length_cons, List.length_nil] at hl
    omega

/-- Claim C7, amended: when `1 ≤ nPoints` and `2 * nPoints ≤ N`, the
window for index `i` is `flux[lwr : lwr + 2 * nPoints]` with
`lwr = min (max (i - nPoints) 0) (N - 2 * nPoints)`, which is in bounds
and of the full configured width, and `output[i] = flux[i] - median(window)`. -/
theorem median_detrend_spec (flux : List ℚ) (n i : ℕ) (hn : 1 ≤ n)
    (hlen : 2 * n ≤ flux.length) (hi : i < flux.length) :
    min (i - n) (flux.length - 2 * n) + 2 * n ≤ flux.length ∧
    ∃ m, medianQ ((flux.drop (min (i - n) (flux.length - 2 * n))).take (2 * n)) =
        some m ∧
      (median_detrend flux n).getD i Option.none =
        some (flux.getD i 0 - m) := by
  have hbound : min (i - n) (flux.length - 2 * n) + 2 * n ≤ flux.length := by
    omega
  refine ⟨hbound, ?_⟩
  have hwin : ((flux.drop (min (i - n) (flux.length - 2 * n))).take (2 * n)) ≠ [] := by
    have hlength : ((flux.drop (min (i - n) (flux.length - 2 * n))).take (2 * n)).length =
        2 * n := by
      rw [List.length_take, List.length_drop]
      omega
    intro hnil
    rw [hnil] at hlength
    simp at hlength
    omega
  obtain ⟨m, hm⟩ := medianQ_isSome _ hwin
  refine ⟨m, hm, ?_⟩
  rw [median_detrend, getD_range_map _ _ _ hi]
  have hslice : pySlice flux
      (min (max ((i : ℤ) - n) 0 + 2 * n) (flux.length : ℤ) - 2 * n)
      (min (max ((i : ℤ) - n) 0 + 2 * n) (flux.length : ℤ)) =
      (flux.drop (min (i - n) (flux.length - 2 * n))).take (2 * n) := by
    unfold pySlice pyIdx
    have h1 : ¬ (min (max ((i : ℤ) - n) 0 + 2 * n) (flux.length : ℤ) - 2 * n < 0) := by
      omega
    have h2 : ¬ (min (max ((i : ℤ) - n) 0 + 2 * n) (flux.length : ℤ) < 0) := by
      omega
    rw [if_neg h1, if_neg h2]
    have h3 : min (min (max ((i : ℤ) - n) 0 + 2 * n) (flux.length : ℤ)).toNat
        flux.length = min (i - n) (flux.length - 2 * n) + 2 * n := by
      omega
    have h4 : min (min (max ((i : ℤ) - n) 0 + 2 * n) (flux.length : ℤ) - 2 * n).toNat
        flux.length = min (i - n) (flux.length - 2 * n) := by
      omega
    rw [h3, h4, List.drop_take]
    have h5 : min (i - n) (flux.length - 2 * n) + 2 * n -
        min (i - n) (flux.length - 2 * n) = 2 * n := by
      omega
    rw [h5]
  simp only [hslice, hm, Option.map_some']

/-- Witness for (amended) claim C7 at `flux = [1, 2, 3, 4]`, `nPoints = 1`,
`i = 0`. -/
theorem median_detrend_spec_witness :
    min (0 - 1) ([(1 : ℚ), 2, 3, 4].length - 2 * 1) + 2 * 1 ≤
      [(1 : ℚ), 2, 3, 4].length ∧
    ∃ m, medianQ (([(1 : ℚ), 2, 3, 4].drop
        (min (0 - 1) ([(1 : ℚ), 2, 3, 4].length - 2 * 1))).take (2 * 1)) =
        some m ∧
      (median_detrend [(1 : ℚ), 2, 3, 4] 1).getD 0 Option.none =
        some ([(1 : ℚ), 2, 3, 4].getD 0 0 - m) :=
  median_detrend_spec [(1 : ℚ), 2, 3, 4] 1 0 (by decide) (by decide) (by decide)

end Exovetter

namespace Exovetter

/-! ## `WqedLSF.compute_amplitude` / `compute_phase` (utils.py lines 353-427)

Only the fields these methods consult are modelled: the basis function,
the fit order, the two leading fit parameters, the residual variance and
the data size.  `np.hypot(a, b)` is `sqrt (a² + b²)`. -/

/-- The state of a constructed `WqedLSF` as seen by the amplitude/phase
methods. -/
structure LSFState where
  func : Basis
  order : ℕ
  par0 : ℝ
  par1 : ℝ
  variance : ℝ
  dataSize : ℕ

/-- `compute_amplitude`: guarded by the sine/order-2 check; amplitude is
`np.hypot(par[0], par[1])` and its uncertainty `sqrt(2·variance/N)`. -/
noncomputable def computeAmplitude (f : LSFState) : Except String (ℝ × ℝ) :=
  if f.func ≠ Basis.sine ∨ f.order ≠ 2 then
    .error "Only applicable to sine function with order=2"
  else
    .ok (Real.sqrt (f.par0 ^ 2 + f.par1 ^ 2),
      Real.sqrt (2 * f.variance / (f.dataSize : ℝ)))

/-- The phase computation of `compute_phase` (lines 400-427) as a function
of the two fit parameters: `r1 = par0/amp`, `r2 = -par1/amp`, raw angles
`arccos |r1|`, `arcsin |r2|`, the three quadrant-adjustment branches in
the order the code tests them (quadrant I being the no-op fall-through),
and the final averaging of the two determinations. -/
noncomputable def phaseFromParams (p0 p1 : ℝ) : ℝ :=
  (fun pair : ℝ × ℝ => 1 / 2 * (pair.1 + pair.2))
    (if p0 / Real.sqrt (p0 ^ 2 + p1 ^ 2) ≤ 0 ∧ -p1 / Real.sqrt (p0 ^ 2 + p1 ^ 2) ≥ 0 then
      (Real.pi - Real.arccos |p0 / Real.sqrt (p0 ^ 2 + p1 ^ 2)|,
       Real.pi - Real.arcsin |(-p1) / Real.sqrt (p0 ^ 2 + p1 ^ 2)|)
    else if p0 / Real.sqrt (p0 ^ 2 + p1 ^ 2) ≤ 0 ∧ -p1 / Real.sqrt (p0 ^ 2 + p1 ^ 2) ≤ 0 then
      (Real.arccos |p0 / Real.sqrt (p0 ^ 2 + p1 ^ 2)| + Real.pi,
       Real.arcsin |(-p1) / Real.sqrt (p0 ^ 2 + p1 ^ 2)| + Real.pi)
    else if p0 / Real.sqrt (p0 ^ 2 + p1 ^ 2) ≥ 0 ∧ -p1 / Real.sqrt (p0 ^ 2 + p1 ^ 2) ≤ 0 then
      (2 * Real.pi - Real.arccos |p0 / Real.sqrt (p0 ^ 2 + p1 ^ 2)|,
       2 * Real.pi - Real.arcsin |(-p1) / Real.sqrt (p0 ^ 2 + p1 ^ 2)|)
    else
      (Real.arccos |p0 / Real.sqrt (p0 ^ 2 + p1 ^ 2)|,
       Real.arcsin |(-p1) / Real.sqrt (p0 ^ 2 + p1 ^ 2)|))

/-- `compute_phase`: it first calls `compute_amplitude`, whose usage
error propagates; the phase uncertainty is `amp_unc / amp`. -/
noncomputable def computePhase (f : LSFState) : Except String (ℝ × ℝ) :=
  match computeAmplitude f with
  | .error e => .error e
  | .ok (amp, ampUnc) => .ok (phaseFromParams f.par0 f.par1, ampUnc / amp)

/-- Claim C9: `compute_amplitude` and `compute_phase` raise exactly when
the basis is not the sine basis or the order is not 2; on a sine-basis
order-2 fit neither raises. -/
theorem computeAmplitude_computePhase_raise_iff (f : LSFState) :
    (isError (computeAmplitude f) ↔ (f.func ≠ Basis.sine ∨ f.order ≠ 2)) ∧
    (isError (computePhase f) ↔ (f.func ≠ Basis.sine ∨ f.order ≠ 2)) := by
  unfold computePhase computeAmplitude
  split_ifs with h
  · simp only [isError]
    exact ⟨⟨fun _ => h, fun _ => trivial⟩, ⟨fun _ => h, fun _ => trivial⟩⟩
  · simp only [isError]
    exact ⟨⟨False.elim, fun hc => h hc⟩, ⟨False.elim, fun hc => h hc⟩⟩

end Exovetter

namespace Exovetter

/-- Claim C1, counterexample: at fit parameters `(1, 0)` we have
`r2 = -par[1]/amp = 0` with `r1 = 1 ≥ 0`, yet the code takes the
quadrant-IV branch (`r1 >= 0 and r2 <= 0`), not the quadrant-I no-op:
the returned phase is `2π`, while the unadjusted average
`0.5 * (arccos |r1| + arcsin |r2|)` is `0`. -/
theorem phaseFromParams_boundary_cex :
    phaseFromParams 1 0 = 2 * Real.pi ∧
    1 / 2 * (Real.arccos |(1 : ℝ) / Real.sqrt (1 ^ 2 + 0 ^ 2)| +
      Real.arcsin |(-(0 : ℝ)) / Real.sqrt (1 ^ 2 + 0 ^ 2)|) = 0 ∧
    (2 * Real.pi : ℝ) ≠ 0 := by
  have hs : Real.sqrt ((1 : ℝ) ^ 2 + 0 ^ 2) = 1 := by norm_num
  refine ⟨?_, ?_, ?_⟩
  · unfold phaseFromParams
    rw [hs]
    norm_num [Real.arccos_one, Real.arcsin_zero]
    ring
  · rw [hs]
    norm_num [Real.arccos_one, Real.arcsin_zero]
  · have := Real.pi_pos
    positivity

/-- Claim C1, amended: for non-zero parameters, when `r1 = 0` with
`r2 ≥ 0` (i.e. `par[0] = 0`, `par[1] ≤ 0`) the quadrant-II branch applies
but the returned phase still equals the unadjusted average
`0.5*(arccos |r1| + arcsin |r2|)`; when `r2 = 0` with `r1 ≥ 0`
(i.e. `par[1] = 0`, `par[0] ≥ 0`) the quadrant-IV branch applies and the
returned phase is `2π` minus that average. -/
theorem phaseFromParams_boundary (p0 p1 : ℝ) (h : ¬(p0 = 0 ∧ p1 = 0)) :
    (p0 = 0 ∧ p1 ≤ 0 → phaseFromParams p0 p1 =
      1 / 2 * (Real.arccos |p0 / Real.sqrt (p0 ^ 2 + p1 ^ 2)| +
        Real.arcsin |(-p1) / Real.sqrt (p0 ^ 2 + p1 ^ 2)|)) ∧
    (p1 = 0 ∧ 0 ≤ p0 → phaseFromParams p0 p1 =
      2 * Real.pi - 1 / 2 * (Real.arccos |p0 / Real.sqrt (p0 ^ 2 + p1 ^ 2)| +
        Real.arcsin |(-p1) / Real.sqrt (p0 ^ 2 + p1 ^ 2)|)) := by
  constructor
  · rintro ⟨rfl, hp1le⟩
    have hp1 : p1 ≠ 0 := fun h0 => h ⟨rfl, h0⟩
    have hp1lt : p1 < 0 := lt_of_le_of_ne hp1le hp1
    have hamp : Real.sqrt ((0 : ℝ) ^ 2 + p1 ^ 2) = -p1 := by
      rw [show (0 : ℝ) ^ 2 + p1 ^ 2 = p1 ^ 2 by ring, Real.sqrt_sq_eq_abs,
        abs_of_neg hp1lt]
    have hr2 : -p1 / -p1 = 1 := div_self (neg_ne_zero.mpr hp1)
    unfold phaseFromParams
    rw [hamp, zero_div, hr2]
    rw [if_pos ⟨le_refl (0 : ℝ), by norm_num⟩]
    rw [abs_zero, abs_one, Real.arccos_zero, Real.arcsin_one]
    norm_num
    ring
  · rintro ⟨rfl, hp0ge⟩
    have hp0 : p0 ≠ 0 := fun h0 => h ⟨h0, rfl⟩
    have hp0lt : 0 < p0 := lt_of_le_of_ne hp0ge (Ne.symm hp0)
    have hamp : Real.sqrt (p0 ^ 2 + (0 : ℝ) ^ 2) = p0 := by
      rw [show p0 ^ 2 + (0 : ℝ) ^ 2 = p0 ^ 2 by ring, Real.sqrt_sq_eq_abs,
        abs_of_pos hp0lt]
    have hr1 : p0 / p0 = 1 := div_self hp0
    unfold phaseFromParams
    rw [hamp, hr1, neg_zero, zero_div]
    rw [if_neg (by norm_num), if_neg (by norm_num),
      if_pos ⟨by norm_num, le_refl (0 : ℝ)⟩]
    rw [abs_zero, abs_one, Real.arccos_one, Real.arcsin_zero]
    norm_num
    ring

/-- Witness for (amended) claim C1 at parameters `(0, -1)` (so `r1 = 0`,
`r2 = 1`). -/
theorem phaseFromParams_boundary_witness :
    phaseFromParams 0 (-1) =
      1 / 2 * (Real.arccos |(0 : ℝ) / Real.sqrt (0 ^ 2 + (-1) ^ 2)| +
        Real.arcsin |(-(-1) : ℝ) / Real.sqrt (0 ^ 2 + (-1) ^ 2)|) :=
  (phaseFromParams_boundary 0 (-1) (by norm_num)).1 ⟨rfl, by norm_num⟩

end Exovetter

namespace Exovetter

/-! ## Fixed-point behaviour of `sigmaClip` (claim C5 context)

Re-running `sigmaClip` with its own output as `initialClip` returns the
same mask whenever the first run converged inside its iteration budget
(`newNumClipped == oldNumClipped`); the counting argument below shows the
default budget of `int(1e4)` guarantees convergence whenever the series
is shorter than `10000`.  For longer series the budget can in principle
be exhausted mid-growth, in which case nothing forces the output to be a
fixed point. -/

theorem count_le_of_maskLE :
    ∀ (a b : List Bool), maskLE a b → a.length = b.length →
      a.count true ≤ b.count true := by
  intro a
  induction a with
  | nil => intro b _ _; simp
  | cons x xs ih =>
    intro b h hlen
    cases b with
    | nil => simp at hlen
    | cons y ys =>
      have hhead : x = true → y = true := by
        intro hx
        have := h 0
        simp only [List.getD_cons_zero] at this
        exact this hx
      have htail : maskLE xs ys := by
        intro i hi
        have := h (i + 1)
        simp only [List.getD_cons_succ] at this
        exact this hi
      have hlen' : xs.length = ys.length := by simpa using hlen
      have hc := ih ys htail hlen'
      rw [List.count_cons, List.count_cons]
      cases x
      · cases y <;> simp <;> omega
      · rw [hhead rfl]
        simp
        omega

theorem eq_of_maskLE_count :
    ∀ (a b : List Bool), maskLE a b → a.length = b.length →
      b.count true ≤ a.count true → a = b := by
  intro a
  induction a with
  | nil =>
    intro b _ hlen _
    rw [List.length_nil] at hlen
    exact (List.length_eq_zero.mp hlen.symm).symm
  | cons x xs ih =>
    intro b h hlen hcount
    cases b with
    | nil => simp at hlen
    | cons y ys =>
      have hhead : x = true → y = true := by
        intro hx
        have := h 0
        simp only [List.getD_cons_zero] at this
        exact this hx
      have htail : maskLE xs ys := by
        intro i hi
        have := h (i + 1)
        simp only [List.getD_cons_succ] at this
        exact this hi
      have hlen' : xs.length = ys.length := by simpa using hlen
      have hc := count_le_of_maskLE xs ys htail hlen'
      rw [List.count_cons, List.count_cons] at hcount
      have hxy : x = y := by
        cases x
        · cases y
          · rfl
          · simp at hcount
            omega
        · exact (hhead rfl).symm
      subst hxy
      refine congrArg _ (ih ys htail hlen' ?_)
      cases x <;> simp at hcount <;> omega

theorem sigmaClipGo_length (y : List ℚ) (n : ℚ) :
    ∀ (fuel oldNum : ℕ) (idx : List Bool), idx.length = y.length →
      (sigmaClipGo y n fuel oldNum idx).length = y.length := by
  intro fuel
  induction fuel with
  | zero => intro _ idx h; exact h
  | succ f ih =>
    intro oldNum idx h
    unfold sigmaClipGo
    split_ifs
    · exact (sigmaClipStep_length y n idx h).trans h
    · exact ih _ _ ((sigmaClipStep_length y n idx h).trans h)

/-- With enough budget relative to the series length, the returned mask is
a fixed point of the clipping iteration: the flagged count grows strictly
on every non-returning iteration and is bounded by the series length. -/
theorem sigmaClipGo_converged (y : List ℚ) (n : ℚ) :
    ∀ (fuel : ℕ) (idx : List Bool), idx.length = y.length →
      y.length + 1 ≤ fuel + idx.count true →
      sigmaClipStep y n (sigmaClipGo y n fuel (idx.count true) idx) =
        sigmaClipGo y n fuel (idx.count true) idx := by
  intro fuel
  induction fuel with
  | zero =>
    intro idx hlen hfuel
    exfalso
    have := List.count_le_length true idx
    omega
  | succ f ih =>
    intro idx hlen hfuel
    unfold sigmaClipGo
    split_ifs with hc
    · have heq : idx = sigmaClipStep y n idx :=
        eq_of_maskLE_count idx (sigmaClipStep y n idx)
          (sigmaClipStep_mono y n idx hlen)
          (sigmaClipStep_length y n idx hlen).symm (le_of_eq hc)
      rw [← heq, ← heq]
    · have hlt : idx.count true < (sigmaClipStep y n idx).count true :=
        lt_of_le_of_ne
          (count_le_of_maskLE idx (sigmaClipStep y n idx)
            (sigmaClipStep_mono y n idx hlen)
            (sigmaClipStep_length y n idx hlen).symm)
          (fun he => hc he.symm)
      exact ih (sigmaClipStep y n idx)
        ((sigmaClipStep_length y n idx hlen).trans hlen) (by omega)

/-- If the first run converged (its output is a fixed point of the
iteration), re-running `sigmaClip` with that output as the initial mask
returns the identical mask. -/
theorem sigmaClip_rerun_of_fixed (y : List ℚ) (n : ℚ) (M : List Bool)
    (fuel : ℕ) (hlen : M.length = y.length)
    (hfix : sigmaClipStep y n M = M) :
    sigmaClip y n (fuel + 1) (some M) = .ok M := by
  unfold sigmaClip
  rw [if_neg (by simp [hlen])]
  exact congrArg Except.ok (sigmaClipGo_fixed y n M fuel hfix)

/-- For series shorter than the default budget `int(1e4)`, the first run
always converges, and re-running `sigmaClip` on its own output is the
identity (the fixed-point property of claim C5, settled here only under
the length restriction). -/
theorem sigmaClip_fixed_point_short (y : List ℚ) (n : ℚ) (M : List Bool)
    (hshort : y.length < 10000)
    (hM : sigmaClip y n 10000 Option.none = .ok M) :
    sigmaClip y n 10000 (some M) = .ok M := by
  rw [sigmaClip_none_ok] at hM
  have hM' : M = sigmaClipGo y n 10000
      ((List.replicate y.length false).count true)
      (List.replicate y.length false) := by
    exact (Except.ok.injEq _ _).mp hM.symm
  have hcount0 : (List.replicate y.length false).count true =
      (List.replicate y.length false).count true := rfl
  have hlen0 : (List.replicate y.length false).length = y.length := by simp
  have hfix : sigmaClipStep y n M = M := by
    rw [hM']
    exact sigmaClipGo_converged y n 10000 (List.replicate y.length false)
      hlen0 (by
        have : (List.replicate y.length false).count true = 0 :=
          List.count_eq_zero.mpr (by simp)
        omega)
  have hlenM : M.length = y.length := by
    rw [hM']
    exact sigmaClipGo_length y n 10000 _ _ hlen0
  exact sigmaClip_rerun_of_fixed y n M 9999 hlenM hfix

end Exovetter
